import Mathlib

/-!
Verification of the state-consistency core of the `cit` commit browser
(`main.go`).  Go strings are modelled as lists of characters (the oracle
outputs involved are ASCII, so Go's byte-based `len`/slicing and the
character-based model agree), Go `int` values as `Int`, and every
fallible oracle call as an `Option`/`Except` value supplied by an
explicit `Oracle` record.
-/

namespace Cit

/-- Go strings, modelled as character lists. -/
abbrev GoStr := List Char

/-- Turn a Lean string literal into a modelled Go string. -/
def gs (s : String) : GoStr := s.data

/-- `unicode.IsSpace` restricted to the Latin-1 range (the full Go
definition also covers further Unicode space classes that cannot occur
in the oracle outputs handled here). -/
def isGoSpace (c : Char) : Bool :=
  c == ' ' || c == '\t' || c == '\n' || c == '\u000B' || c == '\u000C' ||
    c == '\r' || c == '\u0085' || c == '\u00A0'

/-- `strings.TrimSpace`. -/
def trimSpaceG (s : GoStr) : GoStr :=
  ((s.dropWhile isGoSpace).reverse.dropWhile isGoSpace).reverse

/-- `strings.Split(s, sep)` for a one-character separator. -/
def splitCharG (c : Char) : GoStr → List GoStr
  | [] => [[]]
  | x :: xs =>
    if x = c then [] :: splitCharG c xs
    else
      match splitCharG c xs with
      | [] => [[x]]
      | t :: ts => (x :: t) :: ts

/-- Number of occurrences of a character in a modelled Go string. -/
def countChar (c : Char) : GoStr → Nat
  | [] => 0
  | x :: xs => (if x = c then 1 else 0) + countChar c xs

/-- `strings.SplitN(s, sep, n)` for a one-character separator and `n ≥ 0`. -/
def splitNGo (c : Char) : Nat → GoStr → List GoStr
  | 0, _ => []
  | 1, s => [s]
  | _+2, [] => [[]]
  | n+2, x :: xs =>
    if x = c then [] :: splitNGo c (n+1) xs
    else
      match splitNGo c (n+2) xs with
      | [] => [[x]]
      | t :: ts => (x :: t) :: ts

/-- Rejoin the pieces of a split with the separator. -/
def joinChar (c : Char) : List GoStr → GoStr
  | [] => []
  | [s] => s
  | s :: rest => s ++ c :: joinChar c rest

theorem splitNGo_ne_nil (c : Char) (s : GoStr) : ∀ n : Nat, splitNGo c (n+1) s ≠ [] := by
  induction s with
  | nil => intro n; cases n <;> simp [splitNGo]
  | cons x xs ih =>
    intro n
    cases n with
    | zero => simp [splitNGo]
    | succ m =>
      simp only [splitNGo]
      split
      · simp
      · cases h : splitNGo c (m+2) xs <;> simp

theorem splitNGo_length (c : Char) (s : GoStr) : ∀ n : Nat,
    (splitNGo c (n+1) s).length = min (n+1) (countChar c s + 1) := by
  induction s with
  | nil => intro n; cases n <;> simp [splitNGo, countChar]
  | cons x xs ih =>
    intro n
    cases n with
    | zero =>
      simp only [splitNGo, List.length_singleton]
      omega
    | succ m =>
      by_cases hx : x = c
      · subst hx
        have hih := ih m
        simp [splitNGo, countChar]
        omega
      · have hne := splitNGo_ne_nil c xs (m+1)
        cases h : splitNGo c (m+2) xs with
        | nil => exact absurd h hne
        | cons t ts =>
          have hlen := ih (m+1)
          rw [h] at hlen
          simp only [splitNGo, if_neg hx, h, List.length_cons, countChar, if_neg hx] at *
          omega

theorem joinChar_splitNGo (c : Char) (s : GoStr) : ∀ n : Nat,
    joinChar c (splitNGo c (n+1) s) = s := by
  induction s with
  | nil => intro n; cases n <;> simp [splitNGo, joinChar]
  | cons x xs ih =>
    intro n
    cases n with
    | zero => simp [splitNGo, joinChar]
    | succ m =>
      by_cases hx : x = c
      · have hj := ih m
        cases h : splitNGo c (m+1) xs with
        | nil => exact absurd h (splitNGo_ne_nil c xs m)
        | cons t ts =>
          rw [h] at hj
          simp [splitNGo, if_pos hx, h, joinChar, hj, hx]
      · have hj := ih (m+1)
        cases h : splitNGo c (m+2) xs with
        | nil => exact absurd h (splitNGo_ne_nil c xs (m+1))
        | cons t ts =>
          rw [h] at hj
          cases ts with
          | nil => simp_all [splitNGo, if_neg hx, joinChar]
          | cons u us =>
            simp only [splitNGo, if_neg hx, h, joinChar] at *
            simp [hj]

/-- `formatMessage`: embedded line breaks are collapsed to spaces
(`strings.ReplaceAll(message, "\n", " ")`). -/
def formatMessage (s : GoStr) : GoStr := s.map (fun ch => if ch = '\n' then ' ' else ch)

/-- `formatDate` parses Go's verbose calendar format via `time.Parse` and
re-renders it, passing unparsable dates through verbatim.  The calendar
arithmetic lives entirely in Go's `time` package (an external collaborator);
no claim checked in this development depends on the reformatting, so the
field transformation is modelled as the identity. -/
def formatDate (s : GoStr) : GoStr := s

/-- The `Commit` record of `main.go`. -/
structure Commit where
  Hash : GoStr
  Author : GoStr
  Date : GoStr
  Message : GoStr
  IsUncommitted : Bool
  Branch : GoStr
  BranchLoaded : Bool
  IsHead : Bool
deriving DecidableEq

/-- One line of `git log --all --pretty=format:%H|%an|%ad|%s` output turned
into a commit record: the loop body of `getGitCommits`.  A record is built
exactly when `strings.SplitN(line, "|", 4)` yields 4 parts. -/
def parseLogLine (headHash : GoStr) (line : GoStr) : Option Commit :=
  match splitNGo '|' 4 line with
  | [h, a, d, m] =>
    some ⟨h, a, formatDate d, formatMessage m, false, [], false, h == headHash⟩
  | _ => none

/-- The log-parsing loop of `getGitCommits`: the raw `git log` output split
at newlines, each line fed to `parseLogLine`, lines yielding no record
silently skipped. -/
def getGitCommitsLines (headHash : GoStr) (output : GoStr) : List Commit :=
  (splitCharG '\n' output).filterMap (parseLogLine headHash)

/-- C10: the model builder creates a commit record from a log line if and
only if the line splits into exactly 4 pipe-separated fields, i.e. iff it
contains at least 3 pipe characters (`SplitN` splits at most 3 times, so
the message part may contain further pipes); lines with fewer fields —
including empty lines — produce no record.  The join identity witnesses
that the 4 parts reassemble to the original line, so no character of the
message is lost to further splitting. -/
theorem parseLogLine_record_iff_four_fields (headHash line : GoStr) :
    ((parseLogLine headHash line).isSome ↔ 3 ≤ countChar '|' line)
      ∧ joinChar '|' (splitNGo '|' 4 line) = line := by
  refine ⟨?_, joinChar_splitNGo '|' line 3⟩
  have hlen := splitNGo_length '|' line 3
  rcases hsp : splitNGo '|' 4 line with _ | ⟨a, _ | ⟨b, _ | ⟨c, _ | ⟨d, _ | ⟨e, rest⟩⟩⟩⟩⟩ <;>
    rw [hsp] at hlen <;>
    simp [parseLogLine, hsp] at * <;>
    omega

/-- Association-list model of the Go map `branchCache` (newest binding
first; Go map assignment overwrites, which first-match lookup reproduces). -/
def lookupC : List (GoStr × GoStr) → GoStr → Option GoStr
  | [], _ => none
  | (k, v) :: rest, h => if k = h then some v else lookupC rest h

/-- Does the entry carry the leading current-branch marker (`strings.HasPrefix
(branch, "*")` in the source)? -/
def startsStar : GoStr → Bool
  | '*' :: _ => true
  | _ => false

/-- `strings.TrimPrefix(branch, "*")`: drop the marker when present. -/
def stripStar : GoStr → GoStr
  | '*' :: rest => rest
  | s => s

/-- The branch-picking loop of `getCommitBranch`: an entry marked with the
leading `*` (the checked-out branch) wins and stops the scan; otherwise the
first non-empty entry is kept while the scan continues looking for a
starred one. -/
def pickFoundBranch : List GoStr → GoStr → GoStr
  | [], acc => acc
  | b :: rest, acc =>
    let b2 := trimSpaceG b
    if startsStar b2 then trimSpaceG (stripStar b2)
    else if b2 ≠ [] ∧ acc = [] then pickFoundBranch rest b2
    else pickFoundBranch rest acc

/-- Result of one `getCommitBranch` call: the resolved branch name, the
cache afterwards, and whether a containment query was issued. -/
structure GCBResult where
  branch : GoStr
  cache : List (GoStr × GoStr)
  queried : Bool
deriving DecidableEq

/-- `getCommitBranch`: memoised per-commit branch resolution.  `resp` is the
outcome of the `git branch --contains hash` invocation this call would
issue (`none`: the command failed; errors return `""` and — notably — cache
nothing). -/
def getCommitBranchM (resp : Option GoStr) (cache : List (GoStr × GoStr)) (hash : GoStr) :
    GCBResult :=
  match lookupC cache hash with
  | some b => ⟨b, cache, false⟩
  | none =>
    match resp with
    | none => ⟨[], cache, true⟩
    | some out =>
      let fb := pickFoundBranch (splitCharG '\n' (trimSpaceG out)) []
      ⟨fb, (hash, fb) :: cache, true⟩

/-- The per-entry cleaning of one line of `git branch --contains` output in
`getCommitBranches`: trim, and strip the current-branch marker (trimming
again). -/
def cleanBranchEntry (b : GoStr) : GoStr :=
  let b2 := trimSpaceG b
  if startsStar b2 then trimSpaceG (stripStar b2) else b2

/-- The collection loop of `getCommitBranches`: cleaned entries appended in
output order, blanks skipped. -/
def collectBranches : List GoStr → List GoStr
  | [] => []
  | b :: rest =>
    let b2 := cleanBranchEntry b
    if b2 = [] then collectBranches rest else b2 :: collectBranches rest

/-- `getCommitBranches(hash)`: the branch names whose history contains the
commit; `resp` is the outcome of the `git branch --contains hash` call
(`none`: the command failed, giving the empty list). -/
def getCommitBranchesM (resp : Option GoStr) : List GoStr :=
  match resp with
  | none => []
  | some out => collectBranches (splitCharG '\n' (trimSpaceG out))

/-- Order-preserving reading of the branch-list contract (the amended C7,
stated from the amended claim's words): strip the marker from every entry,
drop blanks, keep the oracle's order. -/
def branchesOrderPreserving (entries : List GoStr) : List GoStr :=
  (entries.map cleanBranchEntry).filter (fun b => decide (b ≠ []))

/-- C7 (counterexample): on the oracle output `"  feature\n* main"` — where
`main` is the checked-out branch, marked and listed second —
`getCommitBranches` returns `[feature, main]`, the oracle's order; the
claimed normalisation of the current branch to the front would require
`[main, feature]`. -/
theorem getCommitBranches_no_fronting :
    getCommitBranchesM (some (gs "  feature\n* main")) = [gs "feature", gs "main"]
      ∧ getCommitBranchesM (some (gs "  feature\n* main")) ≠ [gs "main", gs "feature"] := by
  decide

/-- C7 (amended): for every oracle response, `branchesContaining` returns
the branch names of the response with the leading current-branch marker
stripped and blank entries dropped, in oracle-defined order — the current
branch is *not* moved to the front; a failed oracle call yields the empty
list. -/
theorem getCommitBranches_order (resp : Option GoStr) :
    getCommitBranchesM resp =
      match resp with
      | none => []
      | some out => branchesOrderPreserving (splitCharG '\n' (trimSpaceG out)) := by
  cases resp with
  | none => rfl
  | some out =>
    simp only [getCommitBranchesM, branchesOrderPreserving]
    generalize splitCharG '\n' (trimSpaceG out) = l
    induction l with
    | nil => rfl
    | cons b rest ih =>
      by_cases hb : cleanBranchEntry b = [] <;>
        simp [collectBranches, hb, ih]

/-- C6 (counterexample): with an empty cache, a first `resolve` call whose
containment query fails returns `""` and caches nothing, so a second call
for the same hash issues *another* containment query and can return a
*different* branch name — refuting both memoisation and idempotence in the
presence of a failed oracle call. -/
theorem getCommitBranch_error_not_memoised :
    (getCommitBranchM none [] (gs "abc")).queried = true
      ∧ (getCommitBranchM (some (gs "main"))
          (getCommitBranchM none [] (gs "abc")).cache (gs "abc")).queried = true
      ∧ (getCommitBranchM (some (gs "main"))
          (getCommitBranchM none [] (gs "abc")).cache (gs "abc")).branch
          ≠ (getCommitBranchM none [] (gs "abc")).branch := by
  decide

/-- C6 (amended): `resolve` is memoised for *answered* queries: a cache hit
returns the cached value and issues no containment query; on a miss whose
containment query succeeds, the parsed branch (possibly `""`) is stored
under the hash, and every subsequent call for that hash returns exactly
that value without issuing another query.  Only a failed query caches
nothing (the next call retries) — the one correction the counterexample
forces. -/
theorem getCommitBranch_memoised (cache : List (GoStr × GoStr)) (hash out : GoStr) :
    (∀ b, lookupC cache hash = some b →
        ∀ resp, getCommitBranchM resp cache hash = ⟨b, cache, false⟩)
    ∧ (lookupC cache hash = none →
        (getCommitBranchM (some out) cache hash).queried = true
        ∧ lookupC (getCommitBranchM (some out) cache hash).cache hash
            = some (getCommitBranchM (some out) cache hash).branch
        ∧ ∀ resp2,
            getCommitBranchM resp2 (getCommitBranchM (some out) cache hash).cache hash
              = ⟨(getCommitBranchM (some out) cache hash).branch,
                 (getCommitBranchM (some out) cache hash).cache, false⟩) := by
  constructor
  · intro b hb resp
    simp [getCommitBranchM, hb]
  · intro hmiss
    simp [getCommitBranchM, hmiss, lookupC]

/-- Witness for the amended C6 at a concrete input: the empty cache misses,
and the first successfully-answered call issues exactly one query. -/
theorem getCommitBranch_memoised_witness :
    lookupC [] (gs "abc") = none
      ∧ (getCommitBranchM (some (gs "main")) [] (gs "abc")).queried = true :=
  ⟨rfl, ((getCommitBranch_memoised [] (gs "abc") (gs "main")).2 rfl).1⟩

/-! ## The interactive state machine of `main` -/

/-- Key events reaching the application, plus the completion of one
asynchronous per-commit branch-resolution task spawned by
`loadBranchInfoAsync` (`resolve n`: the goroutine for commit index `n`
finishes and writes its result back). -/
inductive Input
  | keyUp | keyDown | keyPgUp | keyPgDn | keyEnter | keyLeft | keyRight
  | keyEsc | runeY | runeN | runeOther
  | resolve (n : Nat)
deriving DecidableEq

/-- Externally observable actions of one step: oracle commands issued and
status-line messages written. -/
inductive Event
  | queryBranchHash (branch : GoStr)
  | queryContains (hash : GoStr)
  | queryHead
  | gitCheckout (hash : GoStr)
  | gitSwitch (branch : GoStr)
  | bulkPrefetch
  | statusMsg (text : GoStr)
deriving DecidableEq

/-- Does the event mutate the repository (a `git checkout` / `git switch`)? -/
def isGitCmd : Event → Bool
  | .gitCheckout _ => true
  | .gitSwitch _ => true
  | _ => false

/-- Per-step responses of the external VCS oracle and terminal: outcomes of
`git rev-parse <branch>`, `git branch --contains <hash>`, the checkout /
switch command (`CombinedOutput`), `git rev-parse HEAD`, and the height of
the text view's inner rectangle. -/
structure Oracle where
  branchHash : GoStr → Option GoStr
  branchesContaining : GoStr → Option GoStr
  checkoutResult : Except GoStr GoStr
  headHash : Option GoStr
  height : Int

/-- The mutable interaction state of `main` (commit model, branch cache,
cursor, scroll window, mode flags, branch-selection data). -/
structure UIState where
  commits : List Commit
  cache : List (GoStr × GoStr)
  currentCommit : Int
  scrollOffset : Int
  confirmMode : Bool
  branchSelectMode : Bool
  confirmAfterBranchSelect : Bool
  isDetachedHeadMode : Bool
  availableBranches : List GoStr
  currentBranchIndex : Int
  stopped : Bool
deriving DecidableEq

/-- Go slice indexing with an `int` index: `none` models the runtime
"index out of range" panic. -/
def idx? {α : Type} (l : List α) (i : Int) : Option α :=
  if 0 ≤ i then l.get? i.toNat else none

/-- The scroll-adjustment at the top of `displayCommits`: slide the window
only when the selection left it, by exactly enough to reach the nearest
edge. -/
def adjustScroll (cur off height : Int) : Int :=
  if cur < off then cur
  else if off + height ≤ cur then cur - height + 1
  else off

/-- Effect of one `displayCommits()` call on the interaction state (the
rendering itself is display plumbing, outside the modelled core). -/
def displayS (o : Oracle) (s : UIState) : UIState :=
  { s with scrollOffset := adjustScroll s.currentCommit s.scrollOffset o.height }

/-- The per-commit reset of `refreshCommitInfo`: real commits lose their
branch annotation and, when the fresh HEAD query succeeded, have `IsHead`
recomputed against the new head hash; the pseudo-commit is untouched. -/
def refreshCommit (headRes : Option GoStr) (c : Commit) : Commit :=
  if c.IsUncommitted then c
  else
    let c2 := { c with Branch := ([] : GoStr), BranchLoaded := false }
    match headRes with
    | some h => { c2 with IsHead := c2.Hash == h }
    | none => c2

/-- `refreshCommitInfo`'s effect on the commit model. -/
def refreshCommits (headRes : Option GoStr) (cs : List Commit) : List Commit :=
  cs.map (refreshCommit headRes)

/-- `shortMsg` of the confirm-`y` success branch: the oracle output,
truncated to 60 characters plus an ellipsis, or a fixed message when the
output is empty. -/
def checkoutShortMsg (out : GoStr) : GoStr :=
  if out = [] then gs "Checkout successful"
  else if 60 < out.length then out.take 60 ++ gs "..."
  else out

/-- Tail of the confirm-`y` handler once the checkout/switch command ran:
surface the result and, on success, `refreshCommitInfo` (full cache
invalidation, bulk prefetch, fresh HEAD query). -/
def finishCheckout (o : Oracle) (s : UIState) (cmd : Event) (detached : Bool)
    (chosen : GoStr) : UIState × List Event :=
  match o.checkoutResult with
  | .error e =>
      (displayS o s, [cmd, .statusMsg (gs "Checkout failed: " ++ e)])
  | .ok out =>
      let short := checkoutShortMsg out
      let msg :=
        if detached then gs "Checkout successful (detached HEAD): " ++ short
        else gs "Switched to branch '" ++ chosen ++ gs "': " ++ short
      (displayS o { s with commits := refreshCommits o.headHash s.commits, cache := [] },
       [cmd, .statusMsg msg, .bulkPrefetch, .queryHead])

/-- The `Enter` handler in Browse mode (the checkout-selection decision). -/
def enterStep (o : Oracle) (s : UIState) : Option (UIState × List Event) :=
  match idx? s.commits s.currentCommit with
  | none => none
  | some c =>
    if c.IsUncommitted then some (s, [])
    else
      let tipEvs := if c.Branch ≠ [] then [Event.queryBranchHash c.Branch] else []
      if c.Branch ≠ [] ∧ o.branchHash c.Branch = some c.Hash then
        let bs := getCommitBranchesM (o.branchesContaining c.Hash)
        if bs ≠ [] then
          let s2 := { s with isDetachedHeadMode := false, availableBranches := bs, currentBranchIndex := 0, branchSelectMode := true, confirmAfterBranchSelect := true }
          some (displayS o s2, tipEvs ++ [.queryContains c.Hash])
        else
          some (displayS o { s with isDetachedHeadMode := false, confirmMode := true },
            tipEvs ++ [.queryContains c.Hash])
      else
        some (displayS o { s with isDetachedHeadMode := true, confirmMode := true }, tipEvs)

/-- Browse-mode key handling (`textView.SetInputCapture`, normal mode). -/
def browseStep (o : Oracle) (i : Input) (s : UIState) : Option (UIState × List Event) :=
  match i with
  | .keyUp =>
      if 0 < s.currentCommit then
        some (displayS o { s with currentCommit := s.currentCommit - 1 }, [])
      else some (s, [])
  | .keyDown =>
      if s.currentCommit < (s.commits.length : Int) - 1 then
        some (displayS o { s with currentCommit := s.currentCommit + 1 }, [])
      else some (s, [])
  | .keyPgUp =>
      let ps := o.height - 1
      some (displayS o { s with currentCommit :=
        if ps ≤ s.currentCommit then s.currentCommit - ps else 0 }, [])
  | .keyPgDn =>
      let ps := o.height - 1
      some (displayS o { s with currentCommit :=
        if s.currentCommit + ps < (s.commits.length : Int) then s.currentCommit + ps
        else (s.commits.length : Int) - 1 }, [])
  | .keyEnter => enterStep o s
  | _ => some (s, [])

/-- BranchSelect-mode key handling. -/
def branchSelectStep (o : Oracle) (i : Input) (s : UIState) :
    Option (UIState × List Event) :=
  match i with
  | .keyLeft =>
      if 0 < s.currentBranchIndex then
        some (displayS o { s with currentBranchIndex := s.currentBranchIndex - 1 }, [])
      else some (s, [])
  | .keyRight =>
      if s.currentBranchIndex < (s.availableBranches.length : Int) - 1 then
        some (displayS o { s with currentBranchIndex := s.currentBranchIndex + 1 }, [])
      else some (s, [])
  | .keyEnter =>
      let s2 := { s with branchSelectMode := false }
      if s2.confirmAfterBranchSelect = true ∧ 0 ≤ s2.currentBranchIndex
          ∧ s2.currentBranchIndex < (s2.availableBranches.length : Int) then
        some (displayS o { s2 with confirmAfterBranchSelect := false, confirmMode := true }, [])
      else some (displayS o s2, [])
  | _ => some (s, [])

/-- Confirm-mode key handling (only the runes `y`/`n` act). -/
def confirmStep (o : Oracle) (i : Input) (s : UIState) : Option (UIState × List Event) :=
  match i with
  | .runeY =>
      match idx? s.commits s.currentCommit with
      | none => none
      | some c =>
        let s2 := { s with confirmMode := false }
        if c.IsUncommitted then some (displayS o s2, [])
        else if s.isDetachedHeadMode then
          some (finishCheckout o s2 (.gitCheckout c.Hash) true c.Hash)
        else
          match idx? s.availableBranches s.currentBranchIndex with
          | none => none
          | some b => some (finishCheckout o s2 (.gitSwitch b) false b)
  | .runeN => some (displayS o { s with confirmMode := false }, [])
  | _ => some (s, [])

/-- Completion of one `loadBranchInfoAsync` goroutine for commit `n`: check
the cache, otherwise run `getCommitBranch` (which issues a containment
query), then write the result into the commit record. -/
def resolveStep (o : Oracle) (n : Nat) (s : UIState) : UIState × List Event :=
  match s.commits.get? n with
  | none => (s, [])
  | some c =>
    if c.BranchLoaded || c.IsUncommitted then (s, [])
    else
      match lookupC s.cache c.Hash with
      | some b =>
          ({ s with commits := s.commits.set n { c with Branch := b, BranchLoaded := true } },
           [])
      | none =>
          let r := getCommitBranchM (o.branchesContaining c.Hash) s.cache c.Hash
          ({ s with
              commits := s.commits.set n { c with Branch := r.branch, BranchLoaded := true },
              cache := r.cache },
           [.queryContains c.Hash])

/-- One reaction of the interactive loop to one input.  `none` models a Go
runtime panic (slice index out of range).  The application-level `Escape`
capture runs before the focused widget's handler, exactly as `tview`
dispatches input. -/
def step (o : Oracle) (i : Input) (s : UIState) : Option (UIState × List Event) :=
  if s.stopped then some (s, [])
  else
    match i with
    | .keyEsc =>
        if s.branchSelectMode then some (displayS o { s with branchSelectMode := false }, [])
        else if s.confirmMode then some (displayS o { s with confirmMode := false }, [])
        else some ({ s with stopped := true }, [])
    | .resolve n => some (resolveStep o n s)
    | _ =>
        if s.branchSelectMode then branchSelectStep o i s
        else if s.confirmMode then confirmStep o i s
        else browseStep o i s

/-- A whole interactive run: a list of inputs with the oracle responses in
effect at each step.  `none`: some step panicked. -/
def run (s : UIState) : List (Oracle × Input) → Option (UIState × List Event)
  | [] => some (s, [])
  | (o, i) :: rest =>
    match step o i s with
    | none => none
    | some (s2, evs) =>
      match run s2 rest with
      | none => none
      | some (s3, evs2) => some (s3, evs ++ evs2)

/-! ## Concrete fixtures for the executable refutations -/

/-- Hash of the concrete real commit used in the concrete runs below. -/
def cHash : GoStr := gs "1111111aaaaaaaaaaaaaaaaaaaaaaaaaaaaaaaaa"

/-- A concrete real commit (as built by `getGitCommits` for the HEAD line). -/
def cBase : Commit :=
  ⟨cHash, gs "alice", gs "2025-01-01 00:00:00", gs "msg", false, [], false, true⟩

/-- The startup interaction state over a one-commit model. -/
def sInit : UIState :=
  ⟨[cBase], [], 0, 0, false, false, false, false, [], 0, false⟩

/-- Oracle during the background resolution task: the containment query
answers `feature`. -/
def oResolve : Oracle :=
  ⟨fun _ => none, fun _ => some (gs "feature"), .ok [], none, 24⟩

/-- Oracle during the `Enter` press: `feature`'s tip is the commit itself,
but the containment query issued by the handler fails. -/
def oEnterFail : Oracle :=
  ⟨fun b => if b = gs "feature" then some cHash else none, fun _ => none, .ok [], none, 24⟩

/-- An oracle whose responses are irrelevant to the step using it. -/
def oAny : Oracle := ⟨fun _ => none, fun _ => none, .ok [], none, 24⟩

/-- C5 (refutation of the no-abort policy): from the startup state, (1) the
cursor commit's branch resolves to `feature`, (2) `Enter` finds `feature`'s
tip equal to the commit hash but the `branchesContaining` query fails, so
the machine enters Confirm with `detached = false` while
`availableBranches` stays empty, and (3) the affirmative confirmation
evaluates `availableBranches[currentBranchIndex]` on an empty slice — a Go
runtime panic, modelled by the run evaluating to `none`. -/
theorem confirm_yes_out_of_range :
    run sInit [(oResolve, .resolve 0), (oEnterFail, .keyEnter), (oAny, .runeY)] = none := by
  rfl

/-- Browse-mode state whose cursor commit has its branch resolved to
`feature`, the branch whose tip is the commit itself. -/
def sTip : UIState :=
  ⟨[{ cBase with Branch := gs "feature", BranchLoaded := true }], [], 0, 0,
    false, false, false, false, [], 0, false⟩

/-- Oracle for the C1 counterexample: `feature`'s tip is the commit;
`feature` and the checked-out `main` both contain it. -/
def oTip : Oracle :=
  ⟨fun b => if b = gs "feature" then some cHash else none,
   fun _ => some (gs "  feature\n* main"), .ok [], none, 24⟩

/-- C1 (counterexample): from the startup state, the cursor commit's branch
resolves to `feature`, whose tip equals the commit's hash; by the claim the
`Enter` press should then skip disambiguation and enter Confirm directly
with detached=false, but the code issues the `branchesContaining` query and
opens BranchSelect with both candidates (Confirm stays off). -/
theorem enter_tip_match_opens_branch_select :
    (run sInit [(oResolve, .resolve 0), (oTip, .keyEnter)]).map
        (fun r => (r.1.confirmMode, r.1.branchSelectMode, r.1.availableBranches,
                   r.1.currentBranchIndex, decide (Event.queryContains cHash ∈ r.2)))
      = some (false, true, [gs "feature", gs "main"], 0, true) := by
  decide

/-- Confirm-mode state reached after BranchSelect chose `main` (selection
index 1), a branch containing the commit but whose tip is elsewhere. -/
def sChoseMain : UIState :=
  ⟨[{ cBase with Branch := gs "feature", BranchLoaded := true }], [], 0, 0,
    true, false, false, false, [gs "feature", gs "main"], 1, false⟩

/-- Tip of `main` in the C2 counterexample: a different commit. -/
def mainTip : GoStr := gs "2222222bbbbbbbbbbbbbbbbbbbbbbbbbbbbbbbbb"

/-- Oracle for the C2 counterexample: `main` points at `mainTip ≠ cHash`. -/
def oMainElsewhere : Oracle :=
  ⟨fun b => if b = gs "main" then some mainTip else some cHash,
   fun _ => none, .ok [], none, 24⟩

/-- Oracle for the C2 counterexample run: `feature`'s tip is the commit,
`main`'s tip is a different commit, and both branches contain the commit. -/
def oC2run : Oracle :=
  ⟨fun b => if b = gs "main" then some mainTip else some cHash,
   fun _ => some (gs "  feature\x0a* main"), .ok [], none, 24⟩

/-- C2 (counterexample): a run from the selection state chooses `main` via
BranchSelect, a branch whose tip hash differs from the selected commit's
hash; the claim requires a detached checkout directly to the commit's
hash, but the executor emits `git switch main` — a branch switch — and no
detached checkout. -/
theorem confirm_switch_ignores_tip :
    (run sTip [(oC2run, .keyEnter), (oC2run, .keyRight), (oC2run, .keyEnter),
        (oC2run, .runeY)]).map
        (fun r => (decide (Event.gitSwitch (gs "main") ∈ r.2),
                   decide (Event.gitCheckout cHash ∈ r.2)))
      = some (true, false)
      ∧ oC2run.branchHash (gs "main") ≠ some cHash := by
  refine ⟨by decide, by decide⟩

/-- C9: after the `displayCommits` scroll adjustment the cursor lies inside
the visible window `[scrollOffset, scrollOffset + height)`, and the offset
is adjusted minimally: unchanged whenever the cursor was already visible,
otherwise slid exactly to put the cursor on the nearest window edge (top
edge when the cursor left upward, bottom edge when it left downward) —
never re-centred. -/
theorem adjustScroll_minimal (cur off height : Int) (hh : 1 ≤ height) :
    (adjustScroll cur off height ≤ cur ∧ cur < adjustScroll cur off height + height)
      ∧ (off ≤ cur ∧ cur < off + height → adjustScroll cur off height = off)
      ∧ (cur < off → adjustScroll cur off height = cur)
      ∧ (off + height ≤ cur → adjustScroll cur off height = cur - height + 1) := by
  unfold adjustScroll
  split_ifs <;> omega

/-- Witness for C9 at the concrete input `cur = 10, off = 0, height = 5`
(the cursor left the window downward). -/
theorem adjustScroll_minimal_witness :
    (adjustScroll 10 0 5 ≤ 10 ∧ (10 : Int) < adjustScroll 10 0 5 + 5)
      ∧ ((0 : Int) ≤ 10 ∧ (10 : Int) < 0 + 5 → adjustScroll 10 0 5 = 0)
      ∧ ((10 : Int) < 0 → adjustScroll 10 0 5 = 10)
      ∧ ((0 : Int) + 5 ≤ 10 → adjustScroll 10 0 5 = 10 - 5 + 1) :=
  adjustScroll_minimal 10 0 5 (by decide)

/-- C1 (amended): for every selected non-pseudo commit confirmed in Browse
mode: if the commit's resolved branch is empty or its tip hash differs from
the commit's hash, the state machine enters Confirm directly with
detached=true and issues no `branchesContaining` query; otherwise (the
resolved branch's tip equals the hash) it queries `branchesContaining(hash)`
and enters BranchSelect with that candidate list and selection index 0 when
the result is non-empty, or Confirm with detached=false when it is empty.
(Relative to the claim, the two sides of the tip-hash test are exchanged —
the change the counterexample forces.) -/
theorem enter_decision (o : Oracle) (s : UIState) (c : Commit) (s' : UIState)
    (evs : List Event)
    (hbs : s.branchSelectMode = false) (hcm : s.confirmMode = false)
    (hst : s.stopped = false)
    (hc : idx? s.commits s.currentCommit = some c) (hnp : c.IsUncommitted = false)
    (hstep : step o .keyEnter s = some (s', evs)) :
    (¬(c.Branch ≠ [] ∧ o.branchHash c.Branch = some c.Hash) →
        s'.confirmMode = true ∧ s'.branchSelectMode = false
          ∧ s'.isDetachedHeadMode = true ∧ Event.queryContains c.Hash ∉ evs)
    ∧ ((c.Branch ≠ [] ∧ o.branchHash c.Branch = some c.Hash) →
        (getCommitBranchesM (o.branchesContaining c.Hash) = [] →
            s'.confirmMode = true ∧ s'.branchSelectMode = false
              ∧ s'.isDetachedHeadMode = false ∧ Event.queryContains c.Hash ∈ evs)
        ∧ (getCommitBranchesM (o.branchesContaining c.Hash) ≠ [] →
            s'.branchSelectMode = true ∧ s'.confirmMode = false
              ∧ s'.isDetachedHeadMode = false
              ∧ s'.availableBranches = getCommitBranchesM (o.branchesContaining c.Hash)
              ∧ s'.currentBranchIndex = 0 ∧ s'.confirmAfterBranchSelect = true
              ∧ Event.queryContains c.Hash ∈ evs)) := by
  have hstep2 : enterStep o s = some (s', evs) := by
    simpa [step, hst, hbs, hcm, browseStep] using hstep
  rw [enterStep, hc] at hstep2
  simp only [hnp, Bool.false_eq_true, if_false] at hstep2
  by_cases htip : c.Branch ≠ [] ∧ o.branchHash c.Branch = some c.Hash
  · rw [if_pos htip] at hstep2
    refine ⟨fun hn => absurd htip hn, fun _ => ⟨?_, ?_⟩⟩
    · intro hempty
      simp only [hempty, ne_eq, not_true_eq_false, if_false] at hstep2
      simp only [Option.some.injEq, Prod.mk.injEq] at hstep2
      obtain ⟨h1, h2⟩ := hstep2
      subst h1; subst h2
      refine ⟨rfl, hbs, rfl, ?_⟩
      simp [htip.1]
    · intro hne
      rw [if_pos hne] at hstep2
      simp only [Option.some.injEq, Prod.mk.injEq] at hstep2
      obtain ⟨h1, h2⟩ := hstep2
      subst h1; subst h2
      refine ⟨rfl, hcm, rfl, rfl, rfl, rfl, ?_⟩
      simp [htip.1]
  · rw [if_neg htip] at hstep2
    simp only [Option.some.injEq, Prod.mk.injEq] at hstep2
    obtain ⟨h1, h2⟩ := hstep2
    subst h1; subst h2
    refine ⟨fun _ => ⟨rfl, hbs, rfl, ?_⟩, fun ht => absurd ht htip⟩
    by_cases hbr : c.Branch ≠ [] <;> simp [hbr]

/-- The commit of `sTip`, with its resolved branch. -/
def cTip : Commit := { cBase with Branch := gs "feature", BranchLoaded := true }

/-- The state after the C1-witness `Enter` press. -/
def sTipAfter : UIState :=
  { sTip with isDetachedHeadMode := false, availableBranches := [gs "feature", gs "main"], currentBranchIndex := 0, branchSelectMode := true, confirmAfterBranchSelect := true }

/-- Witness for the amended C1 at a concrete input: tip match with a
non-empty candidate list opens BranchSelect at index 0 after a
`branchesContaining` query. -/
theorem enter_decision_witness :
    sTipAfter.branchSelectMode = true ∧ sTipAfter.confirmMode = false
      ∧ sTipAfter.isDetachedHeadMode = false
      ∧ sTipAfter.availableBranches = getCommitBranchesM (oTip.branchesContaining cTip.Hash)
      ∧ sTipAfter.currentBranchIndex = 0 ∧ sTipAfter.confirmAfterBranchSelect = true
      ∧ Event.queryContains cTip.Hash
          ∈ [Event.queryBranchHash (gs "feature"), Event.queryContains cHash] := by
  have h := enter_decision oTip sTip cTip sTipAfter
    [Event.queryBranchHash (gs "feature"), Event.queryContains cHash]
    rfl rfl rfl (by decide) rfl (by decide)
  exact (h.2 (by decide)).2 (by decide)

/-- C2 (amended): for every checkout executed by the confirm handler on a
selected non-pseudo commit: when the pending confirmation is detached, the
executor emits a detached checkout directly to the commit's hash; when it
is non-detached (a branch was chosen), it emits a branch switch to the
chosen branch — regardless of whether that branch's tip still equals the
commit's hash (the correction the counterexample forces).  The emitted
command is a deterministic function of the detached flag, the chosen
branch and the commit hash alone. -/
theorem confirm_decision (o : Oracle) (s : UIState) (c : Commit) (s' : UIState)
    (evs : List Event)
    (hcm : s.confirmMode = true) (hbs : s.branchSelectMode = false)
    (hst : s.stopped = false)
    (hc : idx? s.commits s.currentCommit = some c) (hnp : c.IsUncommitted = false)
    (hstep : step o .runeY s = some (s', evs)) :
    (s.isDetachedHeadMode = true → evs.head? = some (.gitCheckout c.Hash))
    ∧ (s.isDetachedHeadMode = false →
        ∀ b, idx? s.availableBranches s.currentBranchIndex = some b →
          evs.head? = some (.gitSwitch b)) := by
  have hstep2 : confirmStep o .runeY s = some (s', evs) := by
    simpa [step, hst, hbs, hcm] using hstep
  rw [confirmStep, hc] at hstep2
  simp only [hnp, Bool.false_eq_true, if_false] at hstep2
  constructor
  · intro hd
    simp only [hd, if_true] at hstep2
    cases hres : o.checkoutResult <;>
      simp only [finishCheckout, hres, Option.some.injEq, Prod.mk.injEq] at hstep2 <;>
      obtain ⟨h1, h2⟩ := hstep2 <;> subst h2 <;> rfl
  · intro hd b hb
    simp only [hd, Bool.false_eq_true, if_false] at hstep2
    rw [hb] at hstep2
    cases hres : o.checkoutResult <;>
      simp only [finishCheckout, hres, Option.some.injEq, Prod.mk.injEq] at hstep2 <;>
      obtain ⟨h1, h2⟩ := hstep2 <;> subst h2 <;> rfl

/-- The event trace of the C2-witness confirmation. -/
def c2evs : List Event :=
  [.gitSwitch (gs "main"),
   .statusMsg (gs "Switched to branch '" ++ gs "main" ++ gs "': " ++ gs "Checkout successful"),
   .bulkPrefetch, .queryHead]

/-- Witness for the amended C2 at a concrete input: non-detached confirm
emits a branch switch to the chosen branch as first command. -/
theorem confirm_decision_witness :
    c2evs.head? = some (Event.gitSwitch (gs "main")) := by
  have h := confirm_decision oMainElsewhere sChoseMain cTip
    { sChoseMain with confirmMode := false, commits := [cBase] } c2evs
    rfl rfl rfl (by decide) rfl (by decide)
  exact h.2 rfl (gs "main") (by decide)

/-- Helper: a repository-mutating command is emitted only by an affirmative
confirmation (`y` in Confirm mode) on a real, in-range cursor commit, and
the step is then exactly the confirm-handler tail on the recorded detached
flag and chosen branch. -/
theorem git_emission (o : Oracle) (i : Input) (s s' : UIState) (evs : List Event)
    (hstep : step o i s = some (s', evs))
    (hgit : ∃ e ∈ evs, isGitCmd e = true) :
    ∃ c b, idx? s.commits s.currentCommit = some c ∧ c.IsUncommitted = false
      ∧ ((s.isDetachedHeadMode = true
            ∧ (s', evs) = finishCheckout o { s with confirmMode := false } (.gitCheckout c.Hash) true c.Hash)
        ∨ (s.isDetachedHeadMode = false
            ∧ idx? s.availableBranches s.currentBranchIndex = some b
            ∧ (s', evs) = finishCheckout o { s with confirmMode := false } (.gitSwitch b) false b)) := by
  cases hso : s.stopped
  case true =>
    simp [step, hso] at hstep
    obtain ⟨rfl, rfl⟩ := hstep
    simp at hgit
  case false =>
    simp only [step, hso, Bool.false_eq_true, if_false] at hstep
    cases i
    case resolve n =>
      simp only [Option.some.injEq] at hstep
      unfold resolveStep at hstep
      cases hg : s.commits.get? n <;> simp only [hg] at hstep
      case none =>
        simp only [Prod.mk.injEq] at hstep
        obtain ⟨rfl, rfl⟩ := hstep
        simp at hgit
      case some c2 =>
        cases hl : c2.BranchLoaded || c2.IsUncommitted <;> simp [hl] at hstep
        case true =>
          obtain ⟨rfl, rfl⟩ := hstep
          simp at hgit
        case false =>
          cases hlk : lookupC s.cache c2.Hash <;> simp [hlk] at hstep <;>
            obtain ⟨rfl, rfl⟩ := hstep <;>
            simp [isGitCmd] at hgit
    case keyEnter =>
      cases hbm : s.branchSelectMode
      case true =>
        simp only [hbm, if_true, branchSelectStep] at hstep
        split_ifs at hstep <;>
          simp only [Option.some.injEq, Prod.mk.injEq] at hstep <;>
          obtain ⟨rfl, rfl⟩ := hstep <;>
          simp at hgit
      case false =>
        cases hcm : s.confirmMode
        case true =>
          simp only [hbm, hcm, Bool.false_eq_true, if_false, if_true, confirmStep,
            Option.some.injEq, Prod.mk.injEq] at hstep
          obtain ⟨rfl, rfl⟩ := hstep
          simp at hgit
        case false =>
          simp only [hbm, hcm, Bool.false_eq_true, if_false, browseStep] at hstep
          unfold enterStep at hstep
          cases hcc : idx? s.commits s.currentCommit <;> simp only [hcc] at hstep
          case none => exact absurd hstep (by simp)
          case some c =>
            cases hcu : c.IsUncommitted <;> simp [hcu] at hstep
            case true =>
              obtain ⟨rfl, rfl⟩ := hstep
              simp at hgit
            case false =>
              by_cases hbr : c.Branch ≠ []
              · by_cases htip : c.Branch ≠ [] ∧ o.branchHash c.Branch = some c.Hash
                · rw [if_pos htip] at hstep
                  by_cases hbs2 : getCommitBranchesM (o.branchesContaining c.Hash) = []
                  · rw [if_pos hbs2] at hstep
                    simp only [Option.some.injEq, Prod.mk.injEq] at hstep
                    obtain ⟨rfl, rfl⟩ := hstep
                    simp [isGitCmd, hbr] at hgit
                  · rw [if_neg hbs2] at hstep
                    simp only [Option.some.injEq, Prod.mk.injEq] at hstep
                    obtain ⟨rfl, rfl⟩ := hstep
                    simp [isGitCmd, hbr] at hgit
                · rw [if_neg htip] at hstep
                  simp only [Option.some.injEq, Prod.mk.injEq] at hstep
                  obtain ⟨rfl, rfl⟩ := hstep
                  simp [isGitCmd, hbr] at hgit
              · have htip : ¬(c.Branch ≠ [] ∧ o.branchHash c.Branch = some c.Hash) :=
                  fun h => hbr h.1
                rw [if_neg htip] at hstep
                simp only [Option.some.injEq, Prod.mk.injEq] at hstep
                obtain ⟨rfl, rfl⟩ := hstep
                simp [isGitCmd, hbr] at hgit
    case runeY =>
      cases hbm : s.branchSelectMode
      case true =>
        simp only [hbm, if_true, branchSelectStep, Option.some.injEq, Prod.mk.injEq] at hstep
        obtain ⟨rfl, rfl⟩ := hstep
        simp at hgit
      case false =>
        cases hcm : s.confirmMode
        case false =>
          simp only [hbm, hcm, Bool.false_eq_true, if_false, browseStep,
            Option.some.injEq, Prod.mk.injEq] at hstep
          obtain ⟨rfl, rfl⟩ := hstep
          simp at hgit
        case true =>
          simp only [hbm, hcm, hso, Bool.false_eq_true, if_false, if_true, confirmStep] at hstep
          cases hcc : idx? s.commits s.currentCommit <;> simp only [hcc] at hstep
          case none => exact absurd hstep (by simp)
          case some c =>
            cases hcu : c.IsUncommitted <;> simp [hcu, hso] at hstep
            case true =>
              obtain ⟨rfl, rfl⟩ := hstep
              simp at hgit
            case false =>
              cases hd : s.isDetachedHeadMode <;> simp [hd, hso] at hstep
              case true =>
                refine ⟨c, [], rfl, hcu, Or.inl ⟨rfl, ?_⟩⟩
                exact hstep.symm
              case false =>
                cases hab : idx? s.availableBranches s.currentBranchIndex <;>
                  simp only [hab] at hstep
                case none => exact absurd hstep (by simp)
                case some b =>
                  simp only [Option.some.injEq] at hstep
                  refine ⟨c, b, rfl, hcu, Or.inr ⟨rfl, rfl, ?_⟩⟩
                  exact hstep.symm
    all_goals {
      cases hbm : s.branchSelectMode <;> cases hcm : s.confirmMode <;>
        simp only [hbm, hcm, Bool.false_eq_true, if_false, if_true,
          branchSelectStep, confirmStep, browseStep] at hstep <;>
        (try split_ifs at hstep) <;>
        simp only [Option.some.injEq, Prod.mk.injEq] at hstep <;>
        obtain ⟨rfl, rfl⟩ := hstep <;>
        simp at hgit
    }

/-- C3: the pseudo "uncommitted changes" commit is never checkoutable: with
the cursor on the pseudo-commit, the checkout actions (`Enter` selection
and affirmative confirmation) execute no oracle command and leave the
commit model and the branch cache unchanged; and on *any* input, a step
emits a repository-mutating command only when the cursor commit is a real
(non-pseudo) commit — so no input sequence can check the pseudo-commit
out. -/
theorem pseudo_commit_never_checked_out (o : Oracle) (i : Input) (s s' : UIState)
    (evs : List Event) (c : Commit)
    (hstep : step o i s = some (s', evs))
    (hc : idx? s.commits s.currentCommit = some c)
    (hps : c.IsUncommitted = true) :
    (i = .keyEnter ∨ i = .runeY → evs = [] ∧ s'.commits = s.commits ∧ s'.cache = s.cache)
    ∧ ∀ e ∈ evs, isGitCmd e = false := by
  have hnogit : ∀ e ∈ evs, isGitCmd e = false := by
    intro e he
    cases hgi : isGitCmd e
    · rfl
    · exfalso
      obtain ⟨c2, b, hc2, hnp, _⟩ := git_emission o i s s' evs hstep ⟨e, he, hgi⟩
      rw [hc] at hc2
      rw [← Option.some.inj hc2] at hnp
      rw [hps] at hnp
      exact Bool.true_eq_false ▸ hnp
  refine ⟨?_, hnogit⟩
  rintro (rfl | rfl)
  · cases hso : s.stopped
    case true =>
      simp [step, hso] at hstep
      obtain ⟨rfl, rfl⟩ := hstep
      exact ⟨rfl, rfl, rfl⟩
    case false =>
      simp only [step, hso, Bool.false_eq_true, if_false] at hstep
      cases hbm : s.branchSelectMode
      case true =>
        simp only [hbm, if_true, branchSelectStep] at hstep
        split_ifs at hstep <;>
          simp only [Option.some.injEq, Prod.mk.injEq] at hstep <;>
          obtain ⟨rfl, rfl⟩ := hstep <;>
          exact ⟨rfl, rfl, rfl⟩
      case false =>
        cases hcm : s.confirmMode
        case true =>
          simp only [hbm, hcm, Bool.false_eq_true, if_false, if_true, confirmStep,
            Option.some.injEq, Prod.mk.injEq] at hstep
          obtain ⟨rfl, rfl⟩ := hstep
          exact ⟨rfl, rfl, rfl⟩
        case false =>
          simp only [hbm, hcm, Bool.false_eq_true, if_false, browseStep] at hstep
          unfold enterStep at hstep
          simp only [hc] at hstep
          simp [hps] at hstep
          obtain ⟨rfl, rfl⟩ := hstep
          exact ⟨rfl, rfl, rfl⟩
  · cases hso : s.stopped
    case true =>
      simp [step, hso] at hstep
      obtain ⟨rfl, rfl⟩ := hstep
      exact ⟨rfl, rfl, rfl⟩
    case false =>
      simp only [step, hso, Bool.false_eq_true, if_false] at hstep
      cases hbm : s.branchSelectMode
      case true =>
        simp only [hbm, if_true, branchSelectStep,
          Option.some.injEq, Prod.mk.injEq] at hstep
        obtain ⟨rfl, rfl⟩ := hstep
        exact ⟨rfl, rfl, rfl⟩
      case false =>
        cases hcm : s.confirmMode
        case true =>
          simp only [hbm, hcm, hso, Bool.false_eq_true, if_false, if_true,
            confirmStep] at hstep
          simp only [hc] at hstep
          simp [hps] at hstep
          obtain ⟨rfl, rfl⟩ := hstep
          exact ⟨rfl, rfl, rfl⟩
        case false =>
          simp only [hbm, hcm, Bool.false_eq_true, if_false, browseStep,
            Option.some.injEq, Prod.mk.injEq] at hstep
          obtain ⟨rfl, rfl⟩ := hstep
          exact ⟨rfl, rfl, rfl⟩

/-- The pseudo-commit fixture, as `getGitCommits` synthesises it. -/
def cPseudo : Commit :=
  ⟨gs "--------", gs "alice", gs "2025-01-01 00:00:00",
   gs "Uncommitted Changes: 1 files changed", true, [], false, false⟩

/-- Confirm-mode state with the cursor on the pseudo-commit. -/
def sPseudoConfirm : UIState :=
  ⟨[cPseudo, cBase], [], 0, 0, true, false, false, false, [], 0, false⟩

/-- Witness for C3 at a concrete input: confirming `y` with the cursor on
the pseudo-commit emits nothing and leaves model and cache unchanged. -/
theorem pseudo_commit_never_checked_out_witness :
    ([] : List Event) = []
      ∧ ({ sPseudoConfirm with confirmMode := false } : UIState).commits
          = sPseudoConfirm.commits
      ∧ ({ sPseudoConfirm with confirmMode := false } : UIState).cache
          = sPseudoConfirm.cache := by
  have h := pseudo_commit_never_checked_out oAny .runeY sPseudoConfirm
    { sPseudoConfirm with confirmMode := false } [] cPseudo (by decide) (by decide) rfl
  exact h.1 (Or.inr rfl)

/-- The oracle-output truncation of the success status is bounded: at most
60 characters of output plus the 3-character ellipsis (or the 19-character
fixed message). -/
theorem checkoutShortMsg_length (out : GoStr) : (checkoutShortMsg out).length ≤ 63 := by
  unfold checkoutShortMsg
  split_ifs with h1 h2
  · decide
  · have h3 : (gs "...").length = 3 := by decide
    simp only [List.length_append, List.length_take, h3]
    omega
  · omega

/-- C4: every executed checkout is atomic with respect to the in-memory
model.  On oracle failure: the commit model and the Branch Resolution
Cache are left entirely unmodified (no partial invalidation), the oracle's
error text is surfaced as a status message, and no prefetch is triggered.
On success: the cache is fully invalidated, a fresh bulk prefetch is
triggered, HEAD is re-queried, every real commit's is-HEAD flag is updated
against the fresh head hash (left as-was when that re-query fails), the
pseudo-commit is untouched, and the surfaced status message carries the
oracle output truncated to a bounded length (at most 63 characters). -/
theorem checkout_postconditions (o : Oracle) (i : Input) (s s' : UIState)
    (evs : List Event)
    (hstep : step o i s = some (s', evs))
    (hgit : ∃ e ∈ evs, isGitCmd e = true) :
    (∀ err, o.checkoutResult = .error err →
        s'.commits = s.commits ∧ s'.cache = s.cache
          ∧ Event.statusMsg (gs "Checkout failed: " ++ err) ∈ evs
          ∧ Event.bulkPrefetch ∉ evs)
    ∧ (∀ out, o.checkoutResult = .ok out →
        s'.cache = [] ∧ Event.bulkPrefetch ∈ evs ∧ Event.queryHead ∈ evs
          ∧ (checkoutShortMsg out).length ≤ 63
          ∧ (∃ pre, Event.statusMsg (pre ++ checkoutShortMsg out) ∈ evs)
          ∧ s'.commits.length = s.commits.length
          ∧ (∀ n cOld, s.commits.get? n = some cOld → cOld.IsUncommitted = true →
              s'.commits.get? n = some cOld)
          ∧ (∀ n cOld, s.commits.get? n = some cOld → cOld.IsUncommitted = false →
              s'.commits.get? n
                = some { cOld with
                         Branch := ([] : GoStr), BranchLoaded := false,
                         IsHead := match o.headHash with
                                   | some hh => cOld.Hash == hh
                                   | none => cOld.IsHead })) := by
  obtain ⟨c, b, hc, hnp, hcase⟩ := git_emission o i s s' evs hstep hgit
  constructor
  · intro err herr
    rcases hcase with ⟨hd, heq⟩ | ⟨hd, hab, heq⟩ <;>
      (simp only [finishCheckout, herr, Prod.mk.injEq] at heq
       obtain ⟨rfl, rfl⟩ := heq
       exact ⟨rfl, rfl, by simp, by simp⟩)
  · intro out hout
    have hpseudo : ∀ n cOld, s.commits.get? n = some cOld → cOld.IsUncommitted = true →
        (refreshCommits o.headHash s.commits).get? n = some cOld := by
      intro n cOld hget hpse
      rw [refreshCommits, List.get?_map, hget]
      simp [refreshCommit, hpse]
    have hreal : ∀ n cOld, s.commits.get? n = some cOld → cOld.IsUncommitted = false →
        (refreshCommits o.headHash s.commits).get? n
          = some { cOld with
                   Branch := ([] : GoStr), BranchLoaded := false,
                   IsHead := match o.headHash with
                             | some hh => cOld.Hash == hh
                             | none => cOld.IsHead } := by
      intro n cOld hget hpse
      rw [refreshCommits, List.get?_map, hget]
      cases hh : o.headHash <;> simp [refreshCommit, hpse, hh]
    rcases hcase with ⟨hd, heq⟩ | ⟨hd, hab, heq⟩
    · simp only [finishCheckout, hout, Prod.mk.injEq] at heq
      obtain ⟨rfl, rfl⟩ := heq
      refine ⟨rfl, by simp, by simp, checkoutShortMsg_length out,
        ⟨gs "Checkout successful (detached HEAD): ", by simp⟩,
        by simp [displayS, refreshCommits], hpseudo, hreal⟩
    · simp only [finishCheckout, hout, Prod.mk.injEq] at heq
      obtain ⟨rfl, rfl⟩ := heq
      refine ⟨rfl, by simp, by simp, checkoutShortMsg_length out,
        ⟨gs "Switched to branch '" ++ b ++ gs "': ", by simp [List.append_assoc]⟩,
        by simp [displayS, refreshCommits], hpseudo, hreal⟩

/-- Detached-confirm state over the one-commit model, for the C4 witness. -/
def sDetConfirm : UIState :=
  ⟨[cBase], [], 0, 0, true, false, false, true, [], 0, false⟩

/-- Oracle for the C4 witness: the checkout succeeds with a short output,
and the fresh HEAD query returns the commit itself. -/
def oC4 : Oracle :=
  ⟨fun _ => none, fun _ => none, .ok (gs "HEAD is now at 1111111"), some cHash, 24⟩

/-- The event trace of the C4-witness confirmation. -/
def c4evs : List Event :=
  [.gitCheckout cHash,
   .statusMsg (gs "Checkout successful (detached HEAD): " ++ gs "HEAD is now at 1111111"),
   .bulkPrefetch, .queryHead]

/-- Witness for C4 at a concrete input: a successful detached checkout
clears the cache and triggers the bulk prefetch and the HEAD re-query. -/
theorem checkout_postconditions_witness :
    ({ sDetConfirm with confirmMode := false } : UIState).cache = []
      ∧ Event.bulkPrefetch ∈ c4evs ∧ Event.queryHead ∈ c4evs := by
  have h := checkout_postconditions oC4 .runeY sDetConfirm
    { sDetConfirm with confirmMode := false } c4evs (by decide)
    ⟨.gitCheckout cHash, by decide, rfl⟩
  have h2 := h.2 (gs "HEAD is now at 1111111") rfl
  exact ⟨h2.1, h2.2.1, h2.2.2.1⟩

/-- The four Browse-mode navigation inputs. -/
def isNavInput : Input → Bool
  | .keyUp | .keyDown | .keyPgUp | .keyPgDn => true
  | _ => false

/-- One navigation step keeps the cursor inside `[0, N)` and leaves the
commit model unchanged (whatever the interaction mode). -/
theorem nav_step_bounds (o : Oracle) (i : Input) (s s' : UIState) (evs : List Event)
    (hnav : isNavInput i = true) (hh : 1 ≤ o.height)
    (hN : 1 ≤ s.commits.length)
    (hlo : 0 ≤ s.currentCommit) (hhi : s.currentCommit < (s.commits.length : Int))
    (hstep : step o i s = some (s', evs)) :
    s'.commits = s.commits ∧ 0 ≤ s'.currentCommit
      ∧ s'.currentCommit < (s.commits.length : Int) := by
  cases hso : s.stopped
  case true =>
    simp [step, hso] at hstep
    obtain ⟨rfl, rfl⟩ := hstep
    exact ⟨rfl, hlo, hhi⟩
  case false =>
    simp only [step, hso, Bool.false_eq_true, if_false] at hstep
    cases i <;> simp only [isNavInput, Bool.false_eq_true] at hnav
    all_goals {
      cases hbm : s.branchSelectMode <;> cases hcm : s.confirmMode <;>
        simp only [hbm, hcm, Bool.false_eq_true, if_false, if_true,
          branchSelectStep, confirmStep, browseStep] at hstep <;>
        (try split_ifs at hstep) <;>
        simp only [Option.some.injEq, Prod.mk.injEq] at hstep <;>
        obtain ⟨rfl, rfl⟩ := hstep <;>
        refine ⟨rfl, ?_, ?_⟩ <;>
        (try simp only [displayS]) <;>
        (try split_ifs) <;>
        omega
    }

/-- Navigation sequences keep the cursor inside `[0, N)`. -/
theorem nav_run_bounds (steps : List (Oracle × Input)) :
    ∀ s : UIState, (∀ p ∈ steps, isNavInput p.2 = true ∧ 1 ≤ p.1.height) →
      1 ≤ s.commits.length → 0 ≤ s.currentCommit →
      s.currentCommit < (s.commits.length : Int) →
      ∀ s' evs, run s steps = some (s', evs) →
        0 ≤ s'.currentCommit ∧ s'.currentCommit < (s.commits.length : Int) := by
  induction steps with
  | nil =>
    intro s hnav hN hlo hhi s' evs hrun
    simp [run] at hrun
    obtain ⟨rfl, rfl⟩ := hrun
    exact ⟨hlo, hhi⟩
  | cons p rest ih =>
    intro s hnav hN hlo hhi s' evs hrun
    obtain ⟨o, i⟩ := p
    rw [run] at hrun
    rcases hstep : step o i s with _ | ⟨s2, evs2⟩
    · simp only [hstep] at hrun
      exact absurd hrun (by simp)
    · simp only [hstep] at hrun
      obtain ⟨hcom, hlo2, hhi2⟩ := nav_step_bounds o i s s2 evs2
        (hnav (o, i) (by simp)).1 (hnav (o, i) (by simp)).2 hN hlo hhi hstep
      rcases hrun2 : run s2 rest with _ | ⟨s3, evs3⟩
      · simp only [hrun2] at hrun
        exact absurd hrun (by simp)
      · simp only [hrun2, Option.some.injEq, Prod.mk.injEq] at hrun
        obtain ⟨rfl, rfl⟩ := hrun
        have hres := ih s2 (fun q hq => hnav q (by simp [hq]))
          (by rw [hcom]; exact hN) hlo2 (by rw [hcom]; exact hhi2) s3 evs3 hrun2
        rw [hcom] at hres
        exact hres

/-- C8: over every commit model with N ≥ 1 entries, every sequence of
navigation inputs (up, down, page-up, page-down — each served with a
positive page height) keeps the cursor index inside `[0, N)`; and in
Browse mode a page-up that would overshoot lands exactly at index 0, while
a page-down that would overshoot lands exactly at index N-1. -/
theorem cursor_always_in_bounds (s : UIState) (steps : List (Oracle × Input))
    (hnav : ∀ p ∈ steps, isNavInput p.2 = true ∧ 1 ≤ p.1.height)
    (hN : 1 ≤ s.commits.length)
    (hlo : 0 ≤ s.currentCommit) (hhi : s.currentCommit < (s.commits.length : Int)) :
    (∀ s' evs, run s steps = some (s', evs) →
        0 ≤ s'.currentCommit ∧ s'.currentCommit < (s.commits.length : Int))
    ∧ (∀ o : Oracle, 1 ≤ o.height →
        s.branchSelectMode = false → s.confirmMode = false → s.stopped = false →
        (s.currentCommit < o.height - 1 →
          ∀ s' evs, step o .keyPgUp s = some (s', evs) → s'.currentCommit = 0)
        ∧ ((s.commits.length : Int) ≤ s.currentCommit + (o.height - 1) →
          ∀ s' evs, step o .keyPgDn s = some (s', evs) →
            s'.currentCommit = (s.commits.length : Int) - 1)) := by
  refine ⟨nav_run_bounds steps s hnav hN hlo hhi, ?_⟩
  intro o hh hbm hcm hst
  constructor
  · intro hover s' evs hstep
    simp only [step, hst, hbm, hcm, Bool.false_eq_true, if_false, browseStep,
      Option.some.injEq, Prod.mk.injEq] at hstep
    obtain ⟨rfl, rfl⟩ := hstep
    simp only [displayS]
    split_ifs <;> omega
  · intro hover s' evs hstep
    simp only [step, hst, hbm, hcm, Bool.false_eq_true, if_false, browseStep,
      Option.some.injEq, Prod.mk.injEq] at hstep
    obtain ⟨rfl, rfl⟩ := hstep
    simp only [displayS]
    split_ifs <;> omega

/-- Witness for C8 at a concrete input: a page-down over the one-commit
model overshoots and lands exactly at index 0 = N-1, inside bounds. -/
theorem cursor_always_in_bounds_witness :
    0 ≤ sInit.currentCommit ∧ sInit.currentCommit < (sInit.commits.length : Int) := by
  have h := cursor_always_in_bounds sInit [(oAny, .keyPgDn)]
    (by decide) (by decide) (by decide) (by decide)
  exact h.1 sInit [] (by decide)

end Cit
